import Mathlib

/-!
Shallow embedding of the `deqode` CHP stabilizer simulator:
`deqode/chp_sim.py` (class `StabilizerTableau`), `deqode/gate.py`
(class `Gate` and its variants) and `deqode/circuit.py` (class `Circuit`).

The numpy boolean matrix `self._bmatrix` is modelled as a
`List (List Bool)` of its rows; a single-entry read `B[i, j]` is `ent`,
a single-entry write `B[i, j] = v` is `upd`, and a whole-row assignment
`B[r, :] = vals` is `setRow`.  The matrix of a tableau always has shape
`(2n+1) × (2n+1)` (validated at construction), so the Python column index
`-1` is column `2n` and row index `-1` is row `2n`; the embedding uses
those explicit indices.  Each mutating method returns the tableau state
after the call together with an `Except PyError` result, so a Python
exception that escapes after a partial in-place mutation is represented
faithfully (the returned state carries the mutation).  The ambient
random source `random.random() > 0.5` consumed by `measure` is modelled
as a `List Bool` stream threaded through the calls.
-/

/-- Error kinds raised by the Python code: `assert` failures, a read of a
missing attribute (`AttributeError`), and the `ValueError`s of `__init__`. -/
inductive PyError where
  | assertionError
  | attributeError
  | valueError
deriving DecidableEq

deriving instance DecidableEq for Except

/-- A binary matrix as its list of rows. -/
abbrev Mat := List (List Bool)

/-- Entry read `B[i, j]`. -/
def ent (m : Mat) (i j : Nat) : Bool :=
  (m.getD i []).getD j false

/-- Single-entry write `B[r, c] = v`. -/
def upd (m : Mat) (r c : Nat) (v : Bool) : Mat :=
  m.set r ((m.getD r []).set c v)

/-- Row assignment `B[r, :] = vals`. -/
def setRow (m : Mat) (r : Nat) (vals : List Bool) : Mat :=
  m.set r vals

/-- The tableau: `n` qubits (`nqubits`, derived in Python from the matrix
shape `(2n+1) × (2n+1)`) and the binary matrix `self._bmatrix`.
Column `2n` is the Python column `-1` (the sign column), row `2n` is the
scratch row. -/
structure StabilizerTableau where
  n : Nat
  bmatrix : Mat

/-- Shape invariant of a tableau: the matrix is `(2n+1) × (2n+1)`. -/
def StabilizerTableau.Wf (t : StabilizerTableau) : Prop :=
  t.bmatrix.length = 2 * t.n + 1 ∧ ∀ r ∈ t.bmatrix, r.length = 2 * t.n + 1

/-- Model of `StabilizerTableau.__init__`: raise `ValueError` if the row count is
even, then raise `ValueError` if the column count (`shape[1]`, the width
of the rows) differs from the row count, otherwise store the matrix
(`nqubits = (rows - 1) // 2`). -/
def StabilizerTableau.init (m : Mat) : Except PyError StabilizerTableau :=
  if m.length % 2 = 0 then Except.error PyError.valueError
  else if (m.headD []).length ≠ m.length then Except.error PyError.valueError
  else Except.ok ⟨(m.length - 1) / 2, m⟩

/-- Model of `StabilizerTableau.zero`: the all-zero state, a `(2n+1) × (2n+1)`
boolean matrix with the diagonal of the first `2n` rows set. -/
def zeroT (nqubits : Nat) : StabilizerTableau :=
  ⟨nqubits, (List.range (2 * nqubits + 1)).map (fun i =>
    (List.range (2 * nqubits + 1)).map (fun j => decide (i = j ∧ i < 2 * nqubits)))⟩

/-- The phase function `g` of `rowsum` (values in `{-1, 0, 1}`). -/
def gfun (x1 z1 x2 z2 : Bool) : Int :=
  if !x1 && !z1 then 0
  else if x1 && z1 then (z2.toNat : Int) - (x2.toNat : Int)
  else if x1 && !z1 then (z2.toNat : Int) * (2 * (x2.toNat : Int) - 1)
  else (x2.toNat : Int) * (1 - 2 * (z2.toNat : Int))

/-- The accumulated `gsum` of `rowsum(h, i)`. -/
def rowsumG (t : StabilizerTableau) (h i : Nat) : Int :=
  (List.range t.n).foldl
    (fun s j => s + gfun (ent t.bmatrix i j) (ent t.bmatrix i (j + t.n))
                         (ent t.bmatrix h j) (ent t.bmatrix h (j + t.n))) 0

/-- One step of the XOR loop of `rowsum(h, i)`:
`x_hj ← x_ij ⊕ x_hj` then `z_hj ← z_ij ⊕ z_hj`. -/
def xorStep (h i n : Nat) (m : Mat) (j : Nat) : Mat :=
  let m1 := upd m h j (ent m i j ^^ ent m h j)
  upd m1 h (j + n) (ent m1 i (j + n) ^^ ent m1 h (j + n))

/-- The new sign bit `rowsum(h, i)` writes: `(2 rᵢ + 2 rₕ + Σ g) mod 4 ≠ 0`
(`ri` and `rh` are the current sign bits, column `-1`, as the ints 0/1). -/
def rowsumSign (t : StabilizerTableau) (h i : Nat) : Bool :=
  decide ((2 * ((ent t.bmatrix i (2 * t.n)).toNat : Int) +
    2 * ((ent t.bmatrix h (2 * t.n)).toNat : Int) + rowsumG t h i) % 4 ≠ 0)

/-- Model of `StabilizerTableau.rowsum(h, i)`: set the sign bit of row `h` from
`(2 rᵢ + 2 rₕ + Σ g) mod 4 ≠ 0`, then XOR the X and Z columns of row `i`
into those of row `h`, column by column. -/
def StabilizerTableau.rowsum (t : StabilizerTableau) (h i : Nat) : StabilizerTableau :=
  let m1 := upd t.bmatrix h (2 * t.n) (rowsumSign t h i)
  { t with bmatrix := (List.range t.n).foldl (xorStep h i t.n) m1 }

/-- One row of `h(a)`: `rᵢ ← rᵢ ⊕ (xᵢₐ ∧ zᵢₐ)`, then swap `xᵢₐ` and `zᵢₐ`
through a temporary. -/
def hStep (a n : Nat) (m : Mat) (i : Nat) : Mat :=
  let m1 := upd m i (2 * n) (ent m i (2 * n) ^^ (ent m i a && ent m i (a + n)))
  let temp := ent m1 i a
  let m2 := upd m1 i a (ent m1 i (a + n))
  upd m2 i (a + n) temp

/-- Model of `StabilizerTableau.h(a)`: assert `a ∈ range(0, n)`, then run the row
loop over `i ∈ range(2n)`. -/
def StabilizerTableau.h (t : StabilizerTableau) (a : Nat) :
    StabilizerTableau × Except PyError Unit :=
  if a < t.n then
    ({ t with bmatrix := (List.range (2 * t.n)).foldl (hStep a t.n) t.bmatrix },
     Except.ok ())
  else (t, Except.error PyError.assertionError)

/-- One iteration of the `phase(a)` loop.  Line 97 of `chp_sim.py`
updates the sign bit on `self._bmatrix`; line 99 then evaluates
`self._matrix`, an attribute the class never defines, so the iteration
raises `AttributeError` after the sign bit of its row has already been
written, and the loop aborts. -/
def phaseStep (a n : Nat) (st : Mat × Option PyError) (i : Nat) : Mat × Option PyError :=
  match st with
  | (m, some e) => (m, some e)
  | (m, none) =>
    let m1 := upd m i (2 * n) (ent m i (2 * n) ^^ (ent m i a && ent m i (a + n)))
    (m1, some PyError.attributeError)

/-- Model of `StabilizerTableau.phase(a)`: assert `a ∈ range(0, n)`, then run the
row loop; every complete source iteration would update `rᵢ` and then
`zᵢₐ`, but the `zᵢₐ` statement reads the missing attribute `_matrix`, so
the first iteration raises after its sign update (see `phaseStep`). -/
def StabilizerTableau.phase (t : StabilizerTableau) (a : Nat) :
    StabilizerTableau × Except PyError Unit :=
  if a < t.n then
    match (List.range (2 * t.n)).foldl (phaseStep a t.n) (t.bmatrix, none) with
    | (m, some e) => ({ t with bmatrix := m }, Except.error e)
    | (m, none) => ({ t with bmatrix := m }, Except.ok ())
  else (t, Except.error PyError.assertionError)

/-- One row of `cnot(a, b)`: read `xᵢₐ, xᵢᵦ, zᵢₐ, zᵢᵦ`, then
`rᵢ ← rᵢ ⊕ (xᵢₐ ∧ zᵢᵦ ∧ (xᵢᵦ ⊕ zᵢₐ ⊕ 1))`, `xᵢᵦ ← xᵢᵦ ⊕ xᵢₐ`,
`zᵢₐ ← zᵢₐ ⊕ zᵢᵦ`. -/
def cnotStep (a b n : Nat) (m : Mat) (i : Nat) : Mat :=
  let xia := ent m i a
  let xib := ent m i b
  let zia := ent m i (a + n)
  let zib := ent m i (b + n)
  let m1 := upd m i (2 * n) (ent m i (2 * n) ^^ (xia && zib && ((xib ^^ zia) ^^ true)))
  let m2 := upd m1 i b (xib ^^ xia)
  upd m2 i (a + n) (zia ^^ zib)

/-- Model of `StabilizerTableau.cnot(a, b)`: assert both targets in range and
distinct, then run the row loop over `i ∈ range(2n)`. -/
def StabilizerTableau.cnot (t : StabilizerTableau) (a b : Nat) :
    StabilizerTableau × Except PyError Unit :=
  if a < t.n ∧ b < t.n ∧ a ≠ b then
    ({ t with bmatrix := (List.range (2 * t.n)).foldl (cnotStep a b t.n) t.bmatrix },
     Except.ok ())
  else (t, Except.error PyError.assertionError)

/-- Model of `StabilizerTableau.measure(a)`: assert `a ∈ range(0, n)`; scan rows
`p ∈ range(n, 2n)` for the first with `xₚₐ = 1`.
Random branch (`p` found): `rowsum(i, p)` for every `i ≠ p` with
`xᵢₐ = 1`; copy row `p` to row `p − n`; zero row `p`; draw the outcome
bit from the random stream; set `rₚ` to it and `zₚₐ = 1`; return `rₚ`.
Deterministic branch: zero the scratch row `2n` (width `shape[1]`);
`rowsum(2n, i + n)` for every `i ∈ range(n)` with `xᵢₐ = 1`; return the
scratch sign bit. -/
def StabilizerTableau.measure (t : StabilizerTableau) (a : Nat) (rbs : List Bool) :
    StabilizerTableau × List Bool × Except PyError Bool :=
  if a < t.n then
    match (List.range' t.n t.n).find? (fun p => ent t.bmatrix p a) with
    | some p =>
      let t1 := (List.range (2 * t.n)).foldl
        (fun s i => if i ≠ p ∧ ent s.bmatrix i a then s.rowsum i p else s) t
      let m2 := setRow t1.bmatrix (p - t1.n) (t1.bmatrix.getD p [])
      let m3 := setRow m2 p (List.replicate (2 * t1.n + 1) false)
      let m4 := upd m3 p (2 * t1.n) (rbs.headD false)
      let m5 := upd m4 p (a + t1.n) true
      ({ t1 with bmatrix := m5 }, rbs.tail, Except.ok (ent m5 p (2 * t1.n)))
    | none =>
      let t0 : StabilizerTableau :=
        { t with bmatrix := setRow t.bmatrix (2 * t.n) (List.replicate (2 * t.n + 1) false) }
      let t1 := (List.range t.n).foldl
        (fun s i => if ent s.bmatrix i a then s.rowsum (2 * s.n) (i + s.n) else s) t0
      (t1, rbs, Except.ok (ent t1.bmatrix (2 * t1.n) (2 * t1.n)))
  else (t, rbs, Except.error PyError.assertionError)

/-- Repeated `measure` calls against one tableau (the repeated-measurement
scenario): returns the final tableau, the remaining random stream, and the
list of per-call results. -/
def measList : StabilizerTableau → List Nat → List Bool →
    StabilizerTableau × List Bool × List (Except PyError Bool)
  | t, [], rbs => (t, rbs, [])
  | t, a :: qs, rbs =>
    let r := t.measure a rbs
    let rest := measList r.1 qs r.2.1
    (rest.1, rest.2.1, r.2.2 :: rest.2.2)

/-- From `gate.py`: the gate variants `HadamardGate`, `CNOTGate`, `MeasureGate`,
each carrying its target indices. -/
inductive Gate where
  | H (target : Nat)
  | CX (ctrl : Nat) (target : Nat)
  | M (target : Nat)

/-- Flag `is_measure`: true only for the Measure variant. -/
def Gate.is_measure : Gate → Bool
  | .M _ => true
  | _ => false

/-- Model of `Gate.apply_to(tableau)`: dispatch to the tableau operation; a Measure
gate returns its outcome, the unitary gates return nothing. -/
def Gate.apply_to : Gate → StabilizerTableau → List Bool →
    StabilizerTableau × List Bool × Except PyError (Option Bool)
  | .H a, t, rbs =>
    match t.h a with
    | (t1, Except.ok _) => (t1, rbs, Except.ok none)
    | (t1, Except.error e) => (t1, rbs, Except.error e)
  | .CX a b, t, rbs =>
    match t.cnot a b with
    | (t1, Except.ok _) => (t1, rbs, Except.ok none)
    | (t1, Except.error e) => (t1, rbs, Except.error e)
  | .M a, t, rbs =>
    match t.measure a rbs with
    | (t1, rbs1, Except.ok r) => (t1, rbs1, Except.ok (some r))
    | (t1, rbs1, Except.error e) => (t1, rbs1, Except.error e)

/-- From `circuit.py`: a `Circuit` owns one tableau, the gate sequence, and the
qubit count given at construction. -/
structure Circuit where
  nqubits : Nat
  tableau : StabilizerTableau
  gates : List Gate

/-- Model of `Circuit.__init__(nqubits)`: fresh zero-state tableau, empty gates. -/
def Circuit.new (nqubits : Nat) : Circuit :=
  ⟨nqubits, zeroT nqubits, []⟩

/-- Model of `Circuit.append(gate)`. -/
def Circuit.append (c : Circuit) (g : Gate) : Circuit :=
  { c with gates := c.gates ++ [g] }

/-- Replay a gate list against a tableau, threading the random stream and
collecting Measure outcomes in order; a raised error aborts the replay
(the collected results are lost with the exception, the tableau keeps the
mutations made so far). -/
def runGates : List Gate → StabilizerTableau → List Bool →
    StabilizerTableau × List Bool × List Bool × Option PyError
  | [], t, rbs => (t, rbs, [], none)
  | g :: gs, t, rbs =>
    match g.apply_to t rbs with
    | (t1, rbs1, Except.error e) => (t1, rbs1, [], some e)
    | (t1, rbs1, Except.ok r) =>
      let rest := runGates gs t1 rbs1
      (rest.1, rest.2.1,
       (match r with | some b => b :: rest.2.2.1 | none => rest.2.2.1),
       rest.2.2.2)

/-- Model of `Circuit.sample()`: replays the full gate sequence against the
own tableau of the circuit — the tableau is not reset — and returns the
outcome list. -/
def Circuit.sample (c : Circuit) (rbs : List Bool) :
    Circuit × List Bool × List Bool × Option PyError :=
  let r := runGates c.gates c.tableau rbs
  ({ c with tableau := r.1 }, r.2.1, r.2.2.1, r.2.2.2)

/-- The Bell-state scenario: `zero(2)`, `h(0)`, `cnot(0,1)`, then measure
qubit 0 and qubit 1, returning the two outcomes. -/
def bellOutcomes (rbs : List Bool) : Except PyError Bool × Except PyError Bool :=
  let t1 := ((zeroT 2).h 0).1
  let t2 := (t1.cnot 0 1).1
  let r0 := t2.measure 0 rbs
  let r1 := r0.1.measure 1 r0.2.1
  (r0.2.2, r1.2.2)

/-- The effect of one complete `h(a)` row iteration on the entries of its
row: columns `a` and `a+n` swap, the sign column `2n` picks up `xₐ ∧ zₐ`. -/
def hRow (a n : Nat) (r : Nat → Bool) : Nat → Bool := fun c =>
  if c = a then r (a + n)
  else if c = a + n then r a
  else if c = 2 * n then r (2 * n) ^^ (r a && r (a + n))
  else r c

/-- The state the deterministic branch of `measure(a)` computes (exactly
the fold the source performs: zero the scratch row, then conditionally
`rowsum` each destabilizer row into it). -/
def detFoldDef (t : StabilizerTableau) (a : Nat) : StabilizerTableau :=
  (List.range t.n).foldl
    (fun s i => if ent s.bmatrix i a then s.rowsum (2 * s.n) (i + s.n) else s)
    { t with bmatrix := setRow t.bmatrix (2 * t.n) (List.replicate (2 * t.n + 1) false) }

/-- A tableau whose scratch row is all-zero (used as the invariant of the
deterministic-measurement fold). -/
def scratchZero (t : StabilizerTableau) (a : Nat) : Prop :=
  (∀ c, c ≤ 2 * t.n → c ≠ a + t.n → ent t.bmatrix (2 * t.n) c = false) ∧
    ent t.bmatrix (2 * t.n) (2 * t.n) = false

/-- All destabilizer and stabilizer rows agree with the zero state: the
identity pattern on the first `2n` rows. -/
def pristine (t : StabilizerTableau) : Prop :=
  ∀ i j, i < 2 * t.n → ent t.bmatrix i j = decide (i = j)

/-- The deterministic branch of `measure(a)` as the specification states
it: zero the scratch row `2n`, then call `rowsum(2n, i+n)` for every
destabilizer row `i` in `[0, n)` whose X-bit `xᵢₐ` is set in the tableau. -/
def detRun (t : StabilizerTableau) (a : Nat) : StabilizerTableau :=
  (List.range t.n).foldl
    (fun s i => if ent t.bmatrix i a then s.rowsum (2 * t.n) (i + t.n) else s)
    { t with bmatrix := setRow t.bmatrix (2 * t.n) (List.replicate (2 * t.n + 1) false) }

/-- The rowsum loop of the random branch of `measure(a)` (`p` is the found
stabilizer row). -/
def randFold (t : StabilizerTableau) (a p : Nat) : StabilizerTableau :=
  (List.range (2 * t.n)).foldl
    (fun s i => if i ≠ p ∧ ent s.bmatrix i a then s.rowsum i p else s) t

/-- The final state of the random branch of `measure(a)`: after the rowsum
loop, copy row `p` to row `p − n`, zero row `p`, set its sign bit to the
drawn bit `rb` and `z_pa = 1`. -/
def randFinal (t : StabilizerTableau) (a p : Nat) (rb : Bool) : StabilizerTableau :=
  let t1 := randFold t a p
  let m2 := setRow t1.bmatrix (p - t1.n) (t1.bmatrix.getD p [])
  let m3 := setRow m2 p (List.replicate (2 * t1.n + 1) false)
  let m4 := upd m3 p (2 * t1.n) rb
  let m5 := upd m4 p (a + t1.n) true
  { t1 with bmatrix := m5 }

theorem length_upd (m : Mat) (r c : Nat) (v : Bool) : (upd m r c v).length = m.length :=
  List.length_set ..

theorem getD_upd (m : Mat) (r c : Nat) (v : Bool) (i : Nat) :
    (upd m r c v).getD i [] =
      if i = r ∧ r < m.length then (m.getD r []).set c v else m.getD i [] := by
  unfold upd
  rw [List.getD_eq_getElem?_getD, List.getElem?_set]
  by_cases hir : r = i
  · subst hir
    by_cases hlt : r < m.length
    · simp [hlt, List.getD_eq_getElem?_getD]
    · simp [hlt, List.getD_eq_getElem?_getD, List.getElem?_eq_none (Nat.le_of_not_lt hlt)]
  · have hcond : ¬(i = r ∧ r < m.length) := fun hc => hir hc.1.symm
    simp [hir, hcond, List.getD_eq_getElem?_getD]

theorem rowlen_upd (m : Mat) (r c : Nat) (v : Bool) (i : Nat) :
    ((upd m r c v).getD i []).length = (m.getD i []).length := by
  rw [getD_upd]
  by_cases hc : i = r ∧ r < m.length
  · rw [if_pos hc, List.length_set, hc.1]
  · rw [if_neg hc]

theorem ent_upd (m : Mat) (r c : Nat) (v : Bool) (i j : Nat) :
    ent (upd m r c v) i j =
      if i = r ∧ j = c ∧ r < m.length ∧ c < (m.getD r []).length then v
      else ent m i j := by
  unfold ent
  rw [getD_upd]
  by_cases h1 : i = r ∧ r < m.length
  · obtain ⟨hi, hrl⟩ := h1
    subst hi
    rw [if_pos ⟨rfl, hrl⟩, List.getD_eq_getElem?_getD, List.getElem?_set]
    by_cases h2 : c = j
    · subst h2
      by_cases h3 : c < (m.getD i []).length
      · rw [if_pos rfl, if_pos h3, if_pos ⟨rfl, rfl, hrl, h3⟩]
        rfl
      · rw [if_pos rfl, if_neg h3,
          if_neg (fun hc : i = i ∧ c = c ∧ i < m.length ∧ c < (m.getD i []).length =>
            h3 hc.2.2.2)]
        rw [List.getD_eq_getElem?_getD (m.getD i []) c false,
          List.getElem?_eq_none (Nat.le_of_not_lt h3)]
    · rw [if_neg h2,
        if_neg (fun hc : i = i ∧ j = c ∧ i < m.length ∧ c < (m.getD i []).length =>
          h2 hc.2.1.symm)]
      rw [← List.getD_eq_getElem?_getD]
  · rw [if_neg h1,
      if_neg (fun hc : i = r ∧ j = c ∧ r < m.length ∧ c < (m.getD r []).length =>
        h1 ⟨hc.1, hc.2.2.1⟩)]

theorem length_setRow (m : Mat) (r : Nat) (vals : List Bool) :
    (setRow m r vals).length = m.length :=
  List.length_set ..

theorem getD_setRow (m : Mat) (r : Nat) (vals : List Bool) (i : Nat) :
    (setRow m r vals).getD i [] =
      if i = r ∧ r < m.length then vals else m.getD i [] := by
  unfold setRow
  rw [List.getD_eq_getElem?_getD, List.getElem?_set]
  by_cases hir : r = i
  · subst hir
    by_cases hlt : r < m.length
    · simp [hlt, List.getD_eq_getElem?_getD]
    · simp [hlt, List.getD_eq_getElem?_getD, List.getElem?_eq_none (Nat.le_of_not_lt hlt)]
  · have hcond : ¬(i = r ∧ r < m.length) := fun hc => hir hc.1.symm
    simp [hir, hcond, List.getD_eq_getElem?_getD]

theorem ent_setRow (m : Mat) (r : Nat) (vals : List Bool) (i j : Nat) :
    ent (setRow m r vals) i j =
      if i = r ∧ r < m.length then vals.getD j false else ent m i j := by
  unfold ent
  rw [getD_setRow]
  by_cases h1 : i = r ∧ r < m.length
  · rw [if_pos h1, if_pos h1]
  · rw [if_neg h1, if_neg h1]

theorem row_ext (r1 r2 : List Bool) (hl : r1.length = r2.length)
    (he : ∀ j, r1.getD j false = r2.getD j false) : r1 = r2 := by
  apply List.ext_getElem hl
  intro j h1 h2
  have := he j
  rwa [List.getD_eq_getElem _ _ h1, List.getD_eq_getElem _ _ h2] at this

theorem mat_ext (m1 m2 : Mat) (hl : m1.length = m2.length)
    (hr : ∀ i, (m1.getD i []).length = (m2.getD i []).length)
    (he : ∀ i j, ent m1 i j = ent m2 i j) : m1 = m2 := by
  apply List.ext_getElem hl
  intro i h1 h2
  have e1 : m1.getD i [] = m1[i] := List.getD_eq_getElem _ _ h1
  have e2 : m2.getD i [] = m2[i] := List.getD_eq_getElem _ _ h2
  rw [← e1, ← e2]
  exact row_ext _ _ (hr i) (fun j => he i j)

theorem foldl_inv {α : Type} (P : α → Prop) (f : α → Nat → α) :
    ∀ (l : List Nat) (s : α), P s → (∀ x i, i ∈ l → P x → P (f x i)) → P (l.foldl f s)
  | [], _, h0, _ => h0
  | x :: l, s, h0, hstep =>
    foldl_inv P f l (f s x) (hstep s x (List.mem_cons_self x l) h0)
      (fun y i hi hy => hstep y i (List.mem_cons_of_mem x hi) hy)

theorem ent_zeroT (nq i j : Nat) (hi : i < 2 * nq + 1) (hj : j < 2 * nq + 1) :
    ent (zeroT nq).bmatrix i j = decide (i = j ∧ i < 2 * nq) := by
  unfold ent zeroT
  have h1 : ((List.range (2 * nq + 1)).map (fun i =>
      (List.range (2 * nq + 1)).map (fun j => decide (i = j ∧ i < 2 * nq)))).getD i [] =
      (List.range (2 * nq + 1)).map (fun j => decide (i = j ∧ i < 2 * nq)) := by
    rw [List.getD_eq_getElem?_getD, List.getElem?_map, List.getElem?_range hi]
    rfl
  rw [h1, List.getD_eq_getElem?_getD, List.getElem?_map, List.getElem?_range hj]
  rfl

theorem zeroT_n (nq : Nat) : (zeroT nq).n = nq := rfl

theorem zeroT_Wf (nq : Nat) : (zeroT nq).Wf := by
  constructor
  · show (List.map _ _).length = _
    rw [List.length_map, List.length_range]
    rfl
  · intro r hr
    simp only [zeroT] at hr
    obtain ⟨i, _, rfl⟩ := List.mem_map.1 hr
    show (List.map _ _).length = _
    rw [List.length_map, List.length_range]
    rfl

/-- Index form of the shape invariant, convenient for `getD`-based proofs. -/
theorem Wf_getD {t : StabilizerTableau} (hwf : t.Wf) :
    ∀ i, i < 2 * t.n + 1 → (t.bmatrix.getD i []).length = 2 * t.n + 1 := by
  intro i hi
  have hil : i < t.bmatrix.length := hwf.1 ▸ hi
  rw [List.getD_eq_getElem _ _ hil]
  exact hwf.2 _ (List.getElem_mem hil)

theorem Wf_of_getD {t : StabilizerTableau} (hlen : t.bmatrix.length = 2 * t.n + 1)
    (hrow : ∀ i, i < 2 * t.n + 1 → (t.bmatrix.getD i []).length = 2 * t.n + 1) : t.Wf := by
  refine ⟨hlen, fun r hr => ?_⟩
  obtain ⟨i, hi, rfl⟩ := List.mem_iff_getElem.1 hr
  rw [← List.getD_eq_getElem t.bmatrix [] hi]
  exact hrow i (hlen ▸ hi)

theorem length_hStep (a n : Nat) (m : Mat) (i : Nat) :
    (hStep a n m i).length = m.length := by
  unfold hStep
  rw [length_upd, length_upd, length_upd]

theorem rowlen_hStep (a n : Nat) (m : Mat) (i r : Nat) :
    ((hStep a n m i).getD r []).length = (m.getD r []).length := by
  unfold hStep
  rw [rowlen_upd, rowlen_upd, rowlen_upd]

theorem ent_hStep (a n : Nat) (m : Mat) (i : Nat) (ha : a < n)
    (hlen : m.length = 2 * n + 1)
    (hrow : (m.getD i []).length = 2 * n + 1) (hi : i < 2 * n + 1) :
    ∀ r c, ent (hStep a n m i) r c =
      if r = i then hRow a n (ent m i) c else ent m r c := by
  intro r c
  have hilen : i < m.length := hlen ▸ hi
  have hb2n : 2 * n < (m.getD i []).length := hrow ▸ by omega
  have hba : a < (m.getD i []).length := hrow ▸ by omega
  have hban : a + n < (m.getD i []).length := hrow ▸ by omega
  unfold hStep hRow
  simp only [ent_upd, length_upd, rowlen_upd]
  split_ifs <;> first | rfl | omega | (subst_vars; rfl)

theorem getD_out {α : Type} (l : List α) (d : α) (i : Nat) (hi : l.length ≤ i) :
    l.getD i d = d := by
  rw [List.getD_eq_getElem?_getD, List.getElem?_eq_none hi]
  rfl

theorem length_hfold (a n : Nat) (l : List Nat) (m : Mat) :
    (l.foldl (hStep a n) m).length = m.length := by
  induction l generalizing m with
  | nil => rfl
  | cons x l ih => rw [List.foldl_cons, ih, length_hStep]

theorem rowlen_hfold (a n : Nat) (l : List Nat) (m : Mat) (r : Nat) :
    ((l.foldl (hStep a n) m).getD r []).length = (m.getD r []).length := by
  induction l generalizing m with
  | nil => rfl
  | cons x l ih => rw [List.foldl_cons, ih, rowlen_hStep]

theorem ent_hfold (a n : Nat) (ha : a < n) :
    ∀ (k : Nat), k ≤ 2 * n → ∀ (m : Mat), m.length = 2 * n + 1 →
      (∀ i, i < 2 * n + 1 → (m.getD i []).length = 2 * n + 1) →
      ∀ r c, ent ((List.range k).foldl (hStep a n) m) r c =
        if r < k then hRow a n (ent m r) c else ent m r c := by
  intro k
  induction k with
  | zero =>
    intro _ m _ _ r c
    simp [List.range_zero]
  | succ k ih =>
    intro hk m hlen hrow r c
    rw [List.range_succ, List.foldl_append, List.foldl_cons, List.foldl_nil]
    have hlenF : ((List.range k).foldl (hStep a n) m).length = 2 * n + 1 := by
      rw [length_hfold]; exact hlen
    have hrowF : ∀ i, i < 2 * n + 1 →
        (((List.range k).foldl (hStep a n) m).getD i []).length = 2 * n + 1 := by
      intro i hi
      rw [rowlen_hfold]
      exact hrow i hi
    rw [ent_hStep a n _ k ha hlenF (hrowF k (by omega)) (by omega) r c]
    have hkk : ent ((List.range k).foldl (hStep a n) m) k = ent m k := by
      funext j
      rw [ih (by omega) m hlen hrow k j, if_neg (lt_irrefl k)]
    by_cases hrk : r = k
    · subst hrk
      rw [if_pos rfl, if_pos (Nat.lt_succ_self r), hkk]
    · rw [if_neg hrk, ih (by omega) m hlen hrow r c]
      by_cases hrlt : r < k
      · rw [if_pos hrlt, if_pos (by omega)]
      · rw [if_neg hrlt, if_neg (by omega)]

theorem h_n (t : StabilizerTableau) (a : Nat) : (t.h a).1.n = t.n := by
  unfold StabilizerTableau.h
  split <;> rfl

theorem h_ok (t : StabilizerTableau) (a : Nat) (ha : a < t.n) : (t.h a).2 = Except.ok () := by
  unfold StabilizerTableau.h
  rw [if_pos ha]

theorem h_bmatrix (t : StabilizerTableau) (a : Nat) (ha : a < t.n) :
    (t.h a).1.bmatrix = (List.range (2 * t.n)).foldl (hStep a t.n) t.bmatrix := by
  unfold StabilizerTableau.h
  rw [if_pos ha]

theorem h_fail (t : StabilizerTableau) (a : Nat) (ha : ¬ a < t.n) :
    t.h a = (t, Except.error PyError.assertionError) := by
  unfold StabilizerTableau.h
  rw [if_neg ha]

theorem h_Wf (t : StabilizerTableau) (a : Nat) (hwf : t.Wf) : (t.h a).1.Wf := by
  by_cases ha : a < t.n
  · apply Wf_of_getD
    · rw [h_n, h_bmatrix t a ha, length_hfold]
      exact hwf.1
    · intro i hi
      rw [h_n] at hi
      rw [h_n, h_bmatrix t a ha, rowlen_hfold]
      exact Wf_getD hwf i hi
  · rw [h_fail t a ha]
    exact hwf

theorem h_ent (t : StabilizerTableau) (a : Nat) (ha : a < t.n) (hwf : t.Wf) :
    ∀ r c, ent (t.h a).1.bmatrix r c =
      if r < 2 * t.n then hRow a t.n (ent t.bmatrix r) c else ent t.bmatrix r c := by
  intro r c
  rw [h_bmatrix t a ha]
  exact ent_hfold a t.n ha (2 * t.n) (Nat.le_refl _) t.bmatrix hwf.1 (Wf_getD hwf) r c

theorem hRow_invol (a n : Nat) (ha : a < n) (r : Nat → Bool) (c : Nat) :
    hRow a n (hRow a n r) c = r c := by
  unfold hRow
  split_ifs <;> subst_vars <;>
    first
      | rfl
      | omega
      | (cases r a <;> cases r (a + n) <;> cases r (2 * n) <;> rfl)

theorem h_h_bmatrix (t : StabilizerTableau) (a : Nat) (ha : a < t.n) (hwf : t.Wf) :
    ((t.h a).1.h a).1.bmatrix = t.bmatrix := by
  have h1n : (t.h a).1.n = t.n := h_n t a
  have h1wf : (t.h a).1.Wf := h_Wf t a hwf
  have ha1 : a < (t.h a).1.n := h1n ▸ ha
  have h2wf : ((t.h a).1.h a).1.Wf := h_Wf _ a h1wf
  have h2n : ((t.h a).1.h a).1.n = t.n := (h_n _ a).trans h1n
  apply mat_ext
  · rw [h2wf.1, hwf.1, h2n]
  · intro i
    by_cases hi : i < 2 * t.n + 1
    · rw [Wf_getD h2wf i (h2n ▸ hi), Wf_getD hwf i hi, h2n]
    · rw [getD_out _ _ i (by rw [h2wf.1, h2n]; omega), getD_out _ _ i (by rw [hwf.1]; omega)]
  · intro r c
    rw [h_ent _ a ha1 h1wf r c]
    have e1 : ∀ j, ent (t.h a).1.bmatrix r j =
        if r < 2 * t.n then hRow a t.n (ent t.bmatrix r) j else ent t.bmatrix r j :=
      fun j => h_ent t a ha hwf r j
    by_cases hr : r < 2 * t.n
    · rw [if_pos (h1n ▸ hr)]
      have efun : ent (t.h a).1.bmatrix r = hRow a t.n (ent t.bmatrix r) := by
        funext j
        rw [e1 j, if_pos hr]
      rw [h1n, efun, hRow_invol a t.n ha (ent t.bmatrix r) c]
    · rw [if_neg (h1n ▸ hr), e1 c, if_neg hr]

theorem length_xorStep (hr ir n : Nat) (m : Mat) (j : Nat) :
    (xorStep hr ir n m j).length = m.length := by
  unfold xorStep
  rw [length_upd, length_upd]

theorem rowlen_xorStep (hr ir n : Nat) (m : Mat) (j r : Nat) :
    ((xorStep hr ir n m j).getD r []).length = (m.getD r []).length := by
  unfold xorStep
  rw [rowlen_upd, rowlen_upd]

theorem length_xorfold (hr ir n : Nat) (l : List Nat) (m : Mat) :
    (l.foldl (xorStep hr ir n) m).length = m.length := by
  induction l generalizing m with
  | nil => rfl
  | cons x l ih => rw [List.foldl_cons, ih, length_xorStep]

theorem rowlen_xorfold (hr ir n : Nat) (l : List Nat) (m : Mat) (r : Nat) :
    ((l.foldl (xorStep hr ir n) m).getD r []).length = (m.getD r []).length := by
  induction l generalizing m with
  | nil => rfl
  | cons x l ih => rw [List.foldl_cons, ih, rowlen_xorStep]

theorem ent_xorStep (hr ir n : Nat) (m : Mat) (j : Nat) (hne : hr ≠ ir)
    (hlen : m.length = 2 * n + 1) (hrow : (m.getD hr []).length = 2 * n + 1)
    (hj : j < n) (hhr : hr ≤ 2 * n) :
    ∀ r c, ent (xorStep hr ir n m j) r c =
      if r = hr ∧ (c = j ∨ c = j + n) then ent m ir c ^^ ent m hr c
      else ent m r c := by
  intro r c
  have hhrlen : hr < m.length := by omega
  unfold xorStep
  simp only [ent_upd, length_upd, rowlen_upd]
  split_ifs <;> subst_vars <;>
    first
      | rfl
      | omega
      | rw [(by omega : c = j + n)]
      | rw [(by omega : c = j)]

theorem ent_xorfold (hr ir n : Nat) (hne : hr ≠ ir) (hhr : hr ≤ 2 * n) :
    ∀ (k : Nat), k ≤ n → ∀ (m : Mat), m.length = 2 * n + 1 →
      (∀ i2, i2 < 2 * n + 1 → (m.getD i2 []).length = 2 * n + 1) →
      ∀ r c, ent ((List.range k).foldl (xorStep hr ir n) m) r c =
        if r = hr ∧ (c < k ∨ (n ≤ c ∧ c < n + k)) then ent m ir c ^^ ent m hr c
        else ent m r c := by
  intro k
  induction k with
  | zero =>
    intro _ m _ _ r c
    have : ¬(r = hr ∧ (c < 0 ∨ (n ≤ c ∧ c < n + 0))) := by omega
    rw [List.range_zero, List.foldl_nil, if_neg this]
  | succ k ih =>
    intro hk m hlen hrow r c
    rw [List.range_succ, List.foldl_append, List.foldl_cons, List.foldl_nil]
    have hlenF : ((List.range k).foldl (xorStep hr ir n) m).length = 2 * n + 1 := by
      rw [length_xorfold]; exact hlen
    have hrowF : ∀ i2, i2 < 2 * n + 1 →
        (((List.range k).foldl (xorStep hr ir n) m).getD i2 []).length = 2 * n + 1 := by
      intro i2 hi2
      rw [rowlen_xorfold]
      exact hrow i2 hi2
    rw [ent_xorStep hr ir n _ k hne hlenF (hrowF hr (by omega)) (by omega) hhr r c]
    by_cases hcond : r = hr ∧ (c = k ∨ c = k + n)
    · rw [if_pos hcond]
      have e1 : ent ((List.range k).foldl (xorStep hr ir n) m) ir c = ent m ir c := by
        rw [ih (by omega) m hlen hrow ir c]
        exact if_neg (fun hx => hne hx.1.symm)
      have e2 : ent ((List.range k).foldl (xorStep hr ir n) m) hr c = ent m hr c := by
        rw [ih (by omega) m hlen hrow hr c]
        apply if_neg
        intro hx
        rcases hcond with ⟨_, hck⟩
        omega
      rw [e1, e2, if_pos ⟨hcond.1, by rcases hcond with ⟨_, hck⟩; omega⟩]
    · rw [if_neg hcond, ih (by omega) m hlen hrow r c]
      by_cases h2 : r = hr ∧ (c < k ∨ (n ≤ c ∧ c < n + k))
      · rw [if_pos h2, if_pos ⟨h2.1, by rcases h2 with ⟨_, hr2⟩; omega⟩]
      · have hnew : ¬(r = hr ∧ (c < k + 1 ∨ (n ≤ c ∧ c < n + (k + 1)))) := by
          intro hx
          by_cases hck : c = k ∨ c = k + n
          · exact hcond ⟨hx.1, hck⟩
          · refine h2 ⟨hx.1, ?_⟩
            rcases hx with ⟨_, hxr⟩
            omega
        rw [if_neg h2, if_neg hnew]

theorem rowsum_n (t : StabilizerTableau) (hr ir : Nat) : (t.rowsum hr ir).n = t.n := rfl

theorem rowsum_bmatrix (t : StabilizerTableau) (hr ir : Nat) :
    (t.rowsum hr ir).bmatrix = (List.range t.n).foldl (xorStep hr ir t.n)
      (upd t.bmatrix hr (2 * t.n) (rowsumSign t hr ir)) := rfl

theorem rowsum_Wf (t : StabilizerTableau) (hr ir : Nat) (hwf : t.Wf) :
    (t.rowsum hr ir).Wf := by
  apply Wf_of_getD
  · rw [rowsum_n, rowsum_bmatrix, length_xorfold, length_upd]
    exact hwf.1
  · intro i2 hi2
    rw [rowsum_n] at hi2
    rw [rowsum_n, rowsum_bmatrix, rowlen_xorfold, rowlen_upd]
    exact Wf_getD hwf i2 hi2

theorem ent_rowsum (t : StabilizerTableau) (hr ir : Nat) (hne : hr ≠ ir)
    (hwf : t.Wf) (hhr : hr ≤ 2 * t.n) :
    ∀ r c, ent (t.rowsum hr ir).bmatrix r c =
      if r = hr then
        if c < 2 * t.n then ent t.bmatrix ir c ^^ ent t.bmatrix hr c
        else if c = 2 * t.n then rowsumSign t hr ir
        else ent t.bmatrix hr c
      else ent t.bmatrix r c := by
  intro r c
  have hhrlen : hr < t.bmatrix.length := by rw [hwf.1]; omega
  have hrowhr : (t.bmatrix.getD hr []).length = 2 * t.n + 1 := Wf_getD hwf hr (by omega)
  rw [rowsum_bmatrix]
  have hlen1 : (upd t.bmatrix hr (2 * t.n) (rowsumSign t hr ir)).length = 2 * t.n + 1 := by
    rw [length_upd]; exact hwf.1
  have hrow1 : ∀ i2, i2 < 2 * t.n + 1 →
      ((upd t.bmatrix hr (2 * t.n) (rowsumSign t hr ir)).getD i2 []).length = 2 * t.n + 1 := by
    intro i2 hi2
    rw [rowlen_upd]
    exact Wf_getD hwf i2 hi2
  rw [ent_xorfold hr ir t.n hne hhr t.n (Nat.le_refl _) _ hlen1 hrow1 r c]
  by_cases hx : r = hr ∧ (c < t.n ∨ (t.n ≤ c ∧ c < t.n + t.n))
  · rw [if_pos hx]
    have e1 : ent (upd t.bmatrix hr (2 * t.n) (rowsumSign t hr ir)) ir c = ent t.bmatrix ir c := by
      rw [ent_upd]
      exact if_neg (fun hc => hne hc.1.symm)
    have e2 : ent (upd t.bmatrix hr (2 * t.n) (rowsumSign t hr ir)) hr c = ent t.bmatrix hr c := by
      rw [ent_upd]
      apply if_neg
      intro hc
      rcases hx with ⟨_, hcr⟩
      omega
    rw [e1, e2, if_pos hx.1, if_pos (by rcases hx with ⟨_, hcr⟩; omega)]
  · rw [if_neg hx, ent_upd]
    by_cases hrh : r = hr
    · have hcge : ¬ c < 2 * t.n := fun hlt => hx ⟨hrh, by omega⟩
      by_cases hc : c = 2 * t.n
      · have hpos : r = hr ∧ c = 2 * t.n ∧ hr < t.bmatrix.length ∧
            2 * t.n < (t.bmatrix.getD hr []).length := ⟨hrh, hc, hhrlen, by omega⟩
        rw [if_pos hpos, if_pos hrh, if_neg hcge, if_pos hc]
      · have hneg : ¬(r = hr ∧ c = 2 * t.n ∧ hr < t.bmatrix.length ∧
            2 * t.n < (t.bmatrix.getD hr []).length) := fun hcc => hc hcc.2.1
        rw [if_neg hneg, if_pos hrh, if_neg hcge, if_neg hc, hrh]
    · have hneg : ¬(r = hr ∧ c = 2 * t.n ∧ hr < t.bmatrix.length ∧
          2 * t.n < (t.bmatrix.getD hr []).length) := fun hcc => hrh hcc.1
      rw [if_neg hneg, if_neg hrh]

theorem rowlen_setRow (m : Mat) (r : Nat) (vals : List Bool) (i : Nat) :
    ((setRow m r vals).getD i []).length =
      if i = r ∧ r < m.length then vals.length else (m.getD i []).length := by
  rw [getD_setRow]
  by_cases hc : i = r ∧ r < m.length
  · rw [if_pos hc, if_pos hc]
  · rw [if_neg hc, if_neg hc]

theorem measure_fail (t : StabilizerTableau) (a : Nat) (rbs : List Bool) (ha : ¬ a < t.n) :
    t.measure a rbs = (t, rbs, Except.error PyError.assertionError) := by
  unfold StabilizerTableau.measure
  rw [if_neg ha]

theorem measure_det_eq (t : StabilizerTableau) (a : Nat) (rbs : List Bool) (ha : a < t.n)
    (hfind : (List.range' t.n t.n).find? (fun p => ent t.bmatrix p a) = none) :
    t.measure a rbs = (detFoldDef t a, rbs,
      Except.ok (ent (detFoldDef t a).bmatrix (2 * (detFoldDef t a).n)
        (2 * (detFoldDef t a).n))) := by
  unfold StabilizerTableau.measure
  rw [if_pos ha, hfind]
  rfl

theorem find?_none_of_stab (t : StabilizerTableau) (a : Nat)
    (hp : ∀ p, t.n ≤ p → p < 2 * t.n → ent t.bmatrix p a = false) :
    (List.range' t.n t.n).find? (fun p => ent t.bmatrix p a) = none := by
  apply List.find?_eq_none.2
  intro p hpmem
  have hb := List.mem_range'_1.1 hpmem
  rw [hp p hb.1 (by omega)]
  exact Bool.false_ne_true

theorem gfun_left_false (z1 z2 : Bool) : gfun false z1 false z2 = 0 := by
  cases z1 <;> cases z2 <;> rfl

theorem foldl_add_zero (f : Nat → Int) :
    ∀ (l : List Nat) (c : Int), (∀ j ∈ l, f j = 0) →
      l.foldl (fun s j => s + f j) c = c
  | [], c, _ => rfl
  | x :: l, c, hz => by
    rw [List.foldl_cons, hz x (List.mem_cons_self x l), add_zero]
    exact foldl_add_zero f l c (fun j hj => hz j (List.mem_cons_of_mem x hj))

theorem rowsumSign_eq_false (s : StabilizerTableau) (hr ir : Nat)
    (h1 : ent s.bmatrix ir (2 * s.n) = false) (h2 : ent s.bmatrix hr (2 * s.n) = false)
    (h3 : rowsumG s hr ir = 0) : rowsumSign s hr ir = false := by
  unfold rowsumSign
  rw [h1, h2, h3]
  decide

theorem replicate_getD_false (k c : Nat) : (List.replicate k false).getD c false = false := by
  rw [List.getD_eq_getElem?_getD]
  by_cases hc : c < k
  · rw [List.getElem?_eq_getElem (by rw [List.length_replicate]; exact hc)]
    simp [List.getElem_replicate]
  · rw [List.getElem?_eq_none (by rw [List.length_replicate]; omega)]
    rfl

theorem det_step_preserves (s : StabilizerTableau) (a x : Nat) (ha : a < s.n) (hx : x < s.n)
    (hwf : s.Wf) (hpr : pristine s) (hsc : scratchZero s a) :
    (if ent s.bmatrix x a then s.rowsum (2 * s.n) (x + s.n) else s).n = s.n ∧
    (if ent s.bmatrix x a then s.rowsum (2 * s.n) (x + s.n) else s).Wf ∧
    pristine (if ent s.bmatrix x a then s.rowsum (2 * s.n) (x + s.n) else s) ∧
    scratchZero (if ent s.bmatrix x a then s.rowsum (2 * s.n) (x + s.n) else s) a := by
  by_cases hcond : ent s.bmatrix x a = true
  · simp only [if_pos hcond]
    have hxa : x = a := by
      have he := hpr x a (by omega)
      rw [hcond] at he
      exact of_decide_eq_true he.symm
    subst hxa
    have hne : 2 * s.n ≠ x + s.n := by omega
    have hent := ent_rowsum s (2 * s.n) (x + s.n) hne hwf (Nat.le_refl _)
    have hsign : rowsumSign s (2 * s.n) (x + s.n) = false := by
      apply rowsumSign_eq_false
      · rw [hpr (x + s.n) (2 * s.n) (by omega)]
        exact decide_eq_false (by omega)
      · exact hsc.2
      · apply foldl_add_zero
        intro j hj
        have hjlt := List.mem_range.1 hj
        rw [show ent s.bmatrix (x + s.n) j = false from by
            rw [hpr (x + s.n) j (by omega)]; exact decide_eq_false (by omega),
          show ent s.bmatrix (2 * s.n) j = false from hsc.1 j (by omega) (by omega)]
        exact gfun_left_false _ _
    refine ⟨rowsum_n s _ _, rowsum_Wf s _ _ hwf, ?_, ?_, ?_⟩
    · intro i j hij
      rw [rowsum_n] at hij
      rw [hent i j, if_neg (by omega : ¬ i = 2 * s.n)]
      exact hpr i j hij
    · intro c hc hcne
      rw [rowsum_n] at hc hcne
      show ent (s.rowsum (2 * s.n) (x + s.n)).bmatrix (2 * (s.rowsum (2 * s.n) (x + s.n)).n) c
          = false
      rw [rowsum_n, hent (2 * s.n) c, if_pos rfl]
      by_cases hclt : c < 2 * s.n
      · rw [if_pos hclt,
          show ent s.bmatrix (x + s.n) c = false from by
            rw [hpr (x + s.n) c (by omega)]; exact decide_eq_false (by omega),
          hsc.1 c (by omega) hcne]
        rfl
      · rw [if_neg hclt]
        by_cases hc2 : c = 2 * s.n
        · rw [if_pos hc2, hsign]
        · rw [if_neg hc2]
          omega
    · show ent (s.rowsum (2 * s.n) (x + s.n)).bmatrix (2 * (s.rowsum (2 * s.n) (x + s.n)).n)
          (2 * (s.rowsum (2 * s.n) (x + s.n)).n) = false
      rw [rowsum_n, hent (2 * s.n) (2 * s.n), if_pos rfl, if_neg (lt_irrefl _),
        if_pos rfl, hsign]
  · rw [if_neg hcond]
    exact ⟨rfl, hwf, hpr, hsc⟩

theorem detfold_zero_inv (a : Nat) :
    ∀ (l : List Nat) (s : StabilizerTableau), (∀ x ∈ l, x < s.n) → a < s.n → s.Wf →
      pristine s → scratchZero s a →
      (l.foldl (fun s i => if ent s.bmatrix i a then s.rowsum (2 * s.n) (i + s.n) else s) s).n
          = s.n ∧
      (l.foldl (fun s i => if ent s.bmatrix i a then s.rowsum (2 * s.n) (i + s.n) else s) s).Wf ∧
      pristine (l.foldl (fun s i => if ent s.bmatrix i a then s.rowsum (2 * s.n) (i + s.n) else s) s) ∧
      scratchZero (l.foldl (fun s i => if ent s.bmatrix i a then s.rowsum (2 * s.n) (i + s.n) else s) s) a := by
  intro l
  induction l with
  | nil =>
    intro s _ _ hwf hpr hsc
    exact ⟨rfl, hwf, hpr, hsc⟩
  | cons x l ih =>
    intro s hmem ha hwf hpr hsc
    rw [List.foldl_cons]
    obtain ⟨hn1, hwf1, hpr1, hsc1⟩ :=
      det_step_preserves s a x ha (hmem x (List.mem_cons_self x l)) hwf hpr hsc
    obtain ⟨hn2, hwf2, hpr2, hsc2⟩ :=
      ih (if ent s.bmatrix x a = true then s.rowsum (2 * s.n) (x + s.n) else s)
        (fun y hy => by rw [hn1]; exact hmem y (List.mem_cons_of_mem x hy))
        (by rw [hn1]; exact ha) hwf1 hpr1 hsc1
    exact ⟨hn2.trans hn1, hwf2, hpr2, hsc2⟩

theorem measure_pristine (t : StabilizerTableau) (a : Nat) (rbs : List Bool)
    (ha : a < t.n) (hwf : t.Wf) (hpr : pristine t) :
    t.measure a rbs = (detFoldDef t a, rbs, Except.ok false) ∧
    (detFoldDef t a).n = t.n ∧ (detFoldDef t a).Wf ∧ pristine (detFoldDef t a) := by
  have hfind : (List.range' t.n t.n).find? (fun p => ent t.bmatrix p a) = none := by
    apply find?_none_of_stab
    intro p hp1 hp2
    rw [hpr p a (by omega)]
    exact decide_eq_false (by omega)
  have hdet := measure_det_eq t a rbs ha hfind
  set t0 : StabilizerTableau :=
    { t with bmatrix := setRow t.bmatrix (2 * t.n) (List.replicate (2 * t.n + 1) false) } with ht0
  have ht0n : t0.n = t.n := rfl
  have ht0len : t0.bmatrix.length = 2 * t.n + 1 := by
    show (setRow _ _ _).length = _
    rw [length_setRow]
    exact hwf.1
  have ht0wf : t0.Wf := by
    apply Wf_of_getD
    · exact ht0len
    · intro i hi
      show ((setRow _ _ _).getD i []).length = _
      rw [rowlen_setRow]
      by_cases hc : i = 2 * t.n ∧ 2 * t.n < t.bmatrix.length
      · rw [if_pos hc, List.length_replicate]
      · rw [if_neg hc]
        exact Wf_getD hwf i hi
  have ht0pr : pristine t0 := by
    intro i j hij
    show ent (setRow _ _ _) i j = _
    rw [ent_setRow, if_neg (by omega : ¬(i = 2 * t.n ∧ 2 * t.n < t.bmatrix.length))]
    exact hpr i j hij
  have ht0sc : scratchZero t0 a := by
    constructor
    · intro c _ _
      show ent (setRow _ _ _) (2 * t.n) c = false
      rw [ent_setRow]
      by_cases hc : 2 * t.n = 2 * t.n ∧ 2 * t.n < t.bmatrix.length
      · rw [if_pos hc, replicate_getD_false]
      · rw [if_neg hc]
        exfalso
        rw [hwf.1] at hc
        exact hc ⟨rfl, by omega⟩
    · show ent (setRow _ _ _) (2 * t.n) (2 * t.n) = false
      rw [ent_setRow, if_pos ⟨rfl, by rw [hwf.1]; omega⟩, replicate_getD_false]
  obtain ⟨hfn, hfwf, hfpr, hfsc⟩ := detfold_zero_inv a (List.range t.n) t0
    (fun y hy => by rw [ht0n]; exact List.mem_range.1 hy) (ht0n ▸ ha) ht0wf ht0pr ht0sc
  have hdf : detFoldDef t a =
      (List.range t.n).foldl
        (fun s i => if ent s.bmatrix i a then s.rowsum (2 * s.n) (i + s.n) else s) t0 := rfl
  refine ⟨?_, ?_, ?_, ?_⟩
  · rw [hdet]
    have hval : ent (detFoldDef t a).bmatrix (2 * (detFoldDef t a).n)
        (2 * (detFoldDef t a).n) = false := by
      rw [hdf]
      exact hfsc.2
    rw [hval]
  · rw [hdf]
    exact hfn.trans ht0n
  · rw [hdf]
    exact hfwf
  · rw [hdf]
    exact hfpr

theorem detfold_spec (t : StabilizerTableau) (a : Nat) (ha : a < t.n) :
    ∀ (l : List Nat), (∀ x ∈ l, x < t.n) →
    ∀ (s : StabilizerTableau), s.n = t.n → s.Wf →
      (∀ i j, i < 2 * t.n → ent s.bmatrix i j = ent t.bmatrix i j) →
      (l.foldl (fun s i => if ent s.bmatrix i a then s.rowsum (2 * s.n) (i + s.n) else s) s
        = l.foldl (fun s i => if ent t.bmatrix i a then s.rowsum (2 * t.n) (i + t.n) else s) s) ∧
      (l.foldl (fun s i => if ent t.bmatrix i a then s.rowsum (2 * t.n) (i + t.n) else s) s).n
        = t.n ∧
      (l.foldl (fun s i => if ent t.bmatrix i a then s.rowsum (2 * t.n) (i + t.n) else s) s).Wf ∧
      (∀ i j, i < 2 * t.n →
        ent (l.foldl (fun s i => if ent t.bmatrix i a then s.rowsum (2 * t.n) (i + t.n) else s)
          s).bmatrix i j = ent t.bmatrix i j) := by
  intro l
  induction l with
  | nil =>
    intro _ s hsn hswf hframe
    exact ⟨rfl, hsn, hswf, hframe⟩
  | cons x l ih =>
    intro hmem s hsn hswf hframe
    have hx : x < t.n := hmem x (List.mem_cons_self x l)
    rw [List.foldl_cons, List.foldl_cons]
    have hcondeq : ent s.bmatrix x a = ent t.bmatrix x a := hframe x a (by omega)
    by_cases hcond : ent t.bmatrix x a = true
    · have hstep : (if ent s.bmatrix x a = true then s.rowsum (2 * s.n) (x + s.n) else s)
          = s.rowsum (2 * t.n) (x + t.n) := by
        rw [hcondeq, if_pos hcond, hsn]
      have hne : 2 * t.n ≠ x + t.n := by omega
      have hent := ent_rowsum s (2 * t.n) (x + t.n) hne hswf (by rw [hsn])
      have hs1n : (s.rowsum (2 * t.n) (x + t.n)).n = t.n := (rowsum_n s _ _).trans hsn
      have hs1wf : (s.rowsum (2 * t.n) (x + t.n)).Wf := rowsum_Wf s _ _ hswf
      have hs1fr : ∀ i j, i < 2 * t.n →
          ent (s.rowsum (2 * t.n) (x + t.n)).bmatrix i j = ent t.bmatrix i j := by
        intro i j hij
        rw [hent i j, if_neg (by omega : ¬ i = 2 * t.n)]
        exact hframe i j hij
      obtain ⟨he, hn2, hwf2, hfr2⟩ := ih (fun y hy => hmem y (List.mem_cons_of_mem x hy))
        (s.rowsum (2 * t.n) (x + t.n)) hs1n hs1wf hs1fr
      rw [hstep, if_pos hcond]
      exact ⟨he, hn2, hwf2, hfr2⟩
    · have hstep : (if ent s.bmatrix x a = true then s.rowsum (2 * s.n) (x + s.n) else s) = s := by
        rw [hcondeq, if_neg hcond]
      obtain ⟨he, hn2, hwf2, hfr2⟩ := ih (fun y hy => hmem y (List.mem_cons_of_mem x hy))
        s hsn hswf hframe
      rw [hstep, if_neg hcond]
      exact ⟨he, hn2, hwf2, hfr2⟩

theorem measure_det_spec (t : StabilizerTableau) (a : Nat) (rbs : List Bool)
    (ha : a < t.n) (hwf : t.Wf)
    (hp : ∀ p, t.n ≤ p → p < 2 * t.n → ent t.bmatrix p a = false) :
    t.measure a rbs =
      (detRun t a, rbs, Except.ok (ent (detRun t a).bmatrix (2 * t.n) (2 * t.n))) ∧
    (detRun t a).n = t.n ∧ (detRun t a).Wf ∧
    (∀ i, i < 2 * t.n → (detRun t a).bmatrix.getD i [] = t.bmatrix.getD i []) := by
  have hdet := measure_det_eq t a rbs ha (find?_none_of_stab t a hp)
  set t0 : StabilizerTableau :=
    { t with bmatrix := setRow t.bmatrix (2 * t.n) (List.replicate (2 * t.n + 1) false) } with ht0
  have ht0n : t0.n = t.n := rfl
  have ht0wf : t0.Wf := by
    apply Wf_of_getD
    · show (setRow _ _ _).length = _
      rw [length_setRow]
      exact hwf.1
    · intro i hi
      show ((setRow _ _ _).getD i []).length = _
      rw [rowlen_setRow]
      by_cases hc : i = 2 * t.n ∧ 2 * t.n < t.bmatrix.length
      · rw [if_pos hc, List.length_replicate]
      · rw [if_neg hc]
        exact Wf_getD hwf i hi
  have ht0fr : ∀ i j, i < 2 * t.n → ent t0.bmatrix i j = ent t.bmatrix i j := by
    intro i j hij
    show ent (setRow _ _ _) i j = _
    rw [ent_setRow, if_neg (by omega : ¬(i = 2 * t.n ∧ 2 * t.n < t.bmatrix.length))]
  obtain ⟨he, hn2, hwf2, hfr2⟩ := detfold_spec t a ha (List.range t.n)
    (fun y hy => List.mem_range.1 hy) t0 ht0n ht0wf ht0fr
  have hdr : detFoldDef t a = detRun t a := he
  have hwf2d : (detRun t a).Wf := hwf2
  have hn2d : (detRun t a).n = t.n := hn2
  have hfr2d : ∀ i j, i < 2 * t.n →
      ent (detRun t a).bmatrix i j = ent t.bmatrix i j := hfr2
  refine ⟨?_, hn2d, hwf2d, ?_⟩
  · rw [hdet, hdr, hn2d]
  · intro i hij
    apply row_ext
    · rw [Wf_getD hwf2d i (by rw [hn2d]; omega), Wf_getD hwf i (by omega), hn2d]
    · intro j
      exact hfr2d i j hij

theorem phasefold_absorb (a n : Nat) (e : PyError) :
    ∀ (l : List Nat) (m : Mat), l.foldl (phaseStep a n) (m, some e) = (m, some e)
  | [], _ => rfl
  | _ :: l, m => by
    rw [List.foldl_cons]
    exact phasefold_absorb a n e l m

theorem phasefold_range (a n k : Nat) (hk : 0 < k) (m : Mat) :
    (List.range k).foldl (phaseStep a n) (m, none) =
      (upd m 0 (2 * n) (ent m 0 (2 * n) ^^ (ent m 0 a && ent m 0 (a + n))),
        some PyError.attributeError) := by
  obtain ⟨j, rfl⟩ : ∃ j, k = j + 1 := ⟨k - 1, by omega⟩
  rw [List.range_succ_eq_map, List.foldl_cons]
  exact phasefold_absorb a n _ _ _

theorem phase_result (t : StabilizerTableau) (a : Nat) (ha : a < t.n) :
    t.phase a = ({ t with bmatrix := (upd t.bmatrix 0 (2 * t.n)
        (ent t.bmatrix 0 (2 * t.n) ^^ (ent t.bmatrix 0 a && ent t.bmatrix 0 (a + t.n)))) },
      Except.error PyError.attributeError) := by
  unfold StabilizerTableau.phase
  rw [if_pos ha, phasefold_range a t.n (2 * t.n) (by omega) t.bmatrix]

theorem phase_fail (t : StabilizerTableau) (a : Nat) (ha : ¬ a < t.n) :
    t.phase a = (t, Except.error PyError.assertionError) := by
  unfold StabilizerTableau.phase
  rw [if_neg ha]

theorem phase_n (t : StabilizerTableau) (a : Nat) : (t.phase a).1.n = t.n := by
  by_cases ha : a < t.n
  · rw [phase_result t a ha]
  · rw [phase_fail t a ha]

theorem phase_Wf (t : StabilizerTableau) (a : Nat) (hwf : t.Wf) : (t.phase a).1.Wf := by
  by_cases ha : a < t.n
  · rw [phase_result t a ha]
    apply Wf_of_getD
    · show (upd _ _ _ _).length = _
      rw [length_upd]
      exact hwf.1
    · intro i hi
      show ((upd _ _ _ _).getD i []).length = _
      rw [rowlen_upd]
      exact Wf_getD hwf i hi
  · rw [phase_fail t a ha]
    exact hwf

theorem length_cnotStep (a b n : Nat) (m : Mat) (i : Nat) :
    (cnotStep a b n m i).length = m.length := by
  unfold cnotStep
  rw [length_upd, length_upd, length_upd]

theorem rowlen_cnotStep (a b n : Nat) (m : Mat) (i r : Nat) :
    ((cnotStep a b n m i).getD r []).length = (m.getD r []).length := by
  unfold cnotStep
  rw [rowlen_upd, rowlen_upd, rowlen_upd]

theorem length_cnotfold (a b n : Nat) (l : List Nat) (m : Mat) :
    (l.foldl (cnotStep a b n) m).length = m.length := by
  induction l generalizing m with
  | nil => rfl
  | cons x l ih => rw [List.foldl_cons, ih, length_cnotStep]

theorem rowlen_cnotfold (a b n : Nat) (l : List Nat) (m : Mat) (r : Nat) :
    ((l.foldl (cnotStep a b n) m).getD r []).length = (m.getD r []).length := by
  induction l generalizing m with
  | nil => rfl
  | cons x l ih => rw [List.foldl_cons, ih, rowlen_cnotStep]

theorem cnot_n (t : StabilizerTableau) (a b : Nat) : (t.cnot a b).1.n = t.n := by
  unfold StabilizerTableau.cnot
  split <;> rfl

theorem cnot_bmatrix (t : StabilizerTableau) (a b : Nat) (hab : a < t.n ∧ b < t.n ∧ a ≠ b) :
    (t.cnot a b).1.bmatrix = (List.range (2 * t.n)).foldl (cnotStep a b t.n) t.bmatrix := by
  unfold StabilizerTableau.cnot
  rw [if_pos hab]

theorem cnot_fail (t : StabilizerTableau) (a b : Nat) (hab : ¬(a < t.n ∧ b < t.n ∧ a ≠ b)) :
    t.cnot a b = (t, Except.error PyError.assertionError) := by
  unfold StabilizerTableau.cnot
  rw [if_neg hab]

theorem cnot_Wf (t : StabilizerTableau) (a b : Nat) (hwf : t.Wf) : (t.cnot a b).1.Wf := by
  by_cases hab : a < t.n ∧ b < t.n ∧ a ≠ b
  · apply Wf_of_getD
    · rw [cnot_n, cnot_bmatrix t a b hab, length_cnotfold]
      exact hwf.1
    · intro i hi
      rw [cnot_n] at hi
      rw [cnot_n, cnot_bmatrix t a b hab, rowlen_cnotfold]
      exact Wf_getD hwf i hi
  · rw [cnot_fail t a b hab]
    exact hwf

theorem detFoldDef_n (t : StabilizerTableau) (a : Nat) : (detFoldDef t a).n = t.n := by
  unfold detFoldDef
  refine foldl_inv (fun s : StabilizerTableau => s.n = t.n)
    (fun s i => if ent s.bmatrix i a then s.rowsum (2 * s.n) (i + s.n) else s)
    (List.range t.n) _ rfl ?_
  intro x i _ hx
  show (if ent x.bmatrix i a then x.rowsum (2 * x.n) (i + x.n) else x).n = t.n
  by_cases hc : ent x.bmatrix i a = true
  · rw [if_pos hc, rowsum_n]
    exact hx
  · rw [if_neg hc]
    exact hx

theorem zeroScratch_Wf (t : StabilizerTableau) (hwf : t.Wf) :
    StabilizerTableau.Wf
      { t with bmatrix := setRow t.bmatrix (2 * t.n) (List.replicate (2 * t.n + 1) false) } := by
  apply Wf_of_getD
  · show (setRow _ _ _).length = _
    rw [length_setRow]
    exact hwf.1
  · intro i hi
    show ((setRow _ _ _).getD i []).length = _
    rw [rowlen_setRow]
    by_cases hc : i = 2 * t.n ∧ 2 * t.n < t.bmatrix.length
    · rw [if_pos hc, List.length_replicate]
    · rw [if_neg hc]
      exact Wf_getD hwf i hi

theorem detFoldDef_Wf (t : StabilizerTableau) (a : Nat) (hwf : t.Wf) :
    (detFoldDef t a).Wf := by
  have h0 := zeroScratch_Wf t hwf
  unfold detFoldDef
  refine foldl_inv (fun s : StabilizerTableau => s.Wf)
    (fun s i => if ent s.bmatrix i a then s.rowsum (2 * s.n) (i + s.n) else s)
    (List.range t.n) _ h0 ?_
  intro x i _ hx
  show (if ent x.bmatrix i a then x.rowsum (2 * x.n) (i + x.n) else x).Wf
  by_cases hc : ent x.bmatrix i a = true
  · rw [if_pos hc]
    exact rowsum_Wf x _ _ hx
  · rw [if_neg hc]
    exact hx

theorem measure_rand_eq (t : StabilizerTableau) (a : Nat) (rbs : List Bool) (ha : a < t.n)
    (p : Nat) (hfind : (List.range' t.n t.n).find? (fun p => ent t.bmatrix p a) = some p) :
    t.measure a rbs = (randFinal t a p (rbs.headD false), rbs.tail,
      Except.ok (ent (randFinal t a p (rbs.headD false)).bmatrix p (2 * (randFold t a p).n))) := by
  unfold StabilizerTableau.measure
  rw [if_pos ha, hfind]
  rfl

theorem randFold_n (t : StabilizerTableau) (a p : Nat) : (randFold t a p).n = t.n := by
  unfold randFold
  refine foldl_inv (fun s : StabilizerTableau => s.n = t.n)
    (fun s i => if i ≠ p ∧ ent s.bmatrix i a then s.rowsum i p else s)
    (List.range (2 * t.n)) _ rfl ?_
  intro x i _ hx
  show (if i ≠ p ∧ ent x.bmatrix i a then x.rowsum i p else x).n = t.n
  by_cases hc : i ≠ p ∧ ent x.bmatrix i a = true
  · rw [if_pos hc, rowsum_n]
    exact hx
  · rw [if_neg hc]
    exact hx

theorem randFold_Wf (t : StabilizerTableau) (a p : Nat) (hwf : t.Wf) :
    (randFold t a p).Wf := by
  unfold randFold
  refine foldl_inv (fun s : StabilizerTableau => s.Wf)
    (fun s i => if i ≠ p ∧ ent s.bmatrix i a then s.rowsum i p else s)
    (List.range (2 * t.n)) _ hwf ?_
  intro x i _ hx
  show (if i ≠ p ∧ ent x.bmatrix i a then x.rowsum i p else x).Wf
  by_cases hc : i ≠ p ∧ ent x.bmatrix i a = true
  · rw [if_pos hc]
    exact rowsum_Wf x _ _ hx
  · rw [if_neg hc]
    exact hx

theorem randFinal_n (t : StabilizerTableau) (a p : Nat) (rb : Bool) :
    (randFinal t a p rb).n = t.n := randFold_n t a p

theorem randFinal_Wf (t : StabilizerTableau) (a p : Nat) (rb : Bool) (hwf : t.Wf)
    (hp : p < 2 * t.n) : (randFinal t a p rb).Wf := by
  have h1wf := randFold_Wf t a p hwf
  have h1n := randFold_n t a p
  apply Wf_of_getD
  · show (upd (upd (setRow (setRow _ _ _) _ _) _ _ _) _ _ _).length = _
    rw [length_upd, length_upd, length_setRow, length_setRow, randFinal_n, h1wf.1, h1n]
  · intro i hi
    rw [randFinal_n] at hi
    show ((upd (upd (setRow (setRow _ _ _) _ _) _ _ _) _ _ _).getD i []).length = _
    rw [rowlen_upd, rowlen_upd, rowlen_setRow, rowlen_setRow, randFinal_n]
    rw [length_setRow]
    by_cases hc1 : i = p ∧ p < (randFold t a p).bmatrix.length
    · rw [if_pos hc1, List.length_replicate, h1n]
    · rw [if_neg hc1]
      by_cases hc2 : i = p - (randFold t a p).n ∧
          p - (randFold t a p).n < (randFold t a p).bmatrix.length
      · rw [if_pos hc2]
        have : ((randFold t a p).bmatrix.getD p []).length = 2 * t.n + 1 := by
          have := Wf_getD h1wf p (by rw [h1n]; omega)
          rw [h1n] at this
          exact this
        rw [this]
      · rw [if_neg hc2]
        have := Wf_getD h1wf i (by rw [h1n]; omega)
        rw [h1n] at this
        exact this

theorem measure_n (t : StabilizerTableau) (a : Nat) (rbs : List Bool) :
    (t.measure a rbs).1.n = t.n := by
  by_cases ha : a < t.n
  · cases hfind : (List.range' t.n t.n).find? (fun p => ent t.bmatrix p a) with
    | none =>
      rw [measure_det_eq t a rbs ha hfind]
      exact detFoldDef_n t a
    | some p =>
      rw [measure_rand_eq t a rbs ha p hfind]
      exact randFinal_n t a p _
  · rw [measure_fail t a rbs ha]

theorem measure_Wf (t : StabilizerTableau) (a : Nat) (rbs : List Bool) (hwf : t.Wf) :
    (t.measure a rbs).1.Wf := by
  by_cases ha : a < t.n
  · cases hfind : (List.range' t.n t.n).find? (fun p => ent t.bmatrix p a) with
    | none =>
      rw [measure_det_eq t a rbs ha hfind]
      exact detFoldDef_Wf t a hwf
    | some p =>
      rw [measure_rand_eq t a rbs ha p hfind]
      have hpmem := List.mem_range'_1.1 (List.mem_of_find?_eq_some hfind)
      exact randFinal_Wf t a p _ hwf (by omega)
  · rw [measure_fail t a rbs ha]
    exact hwf

theorem runGates_cons (g : Gate) (gs : List Gate) (t : StabilizerTableau) (rbs : List Bool) :
    runGates (g :: gs) t rbs =
      match g.apply_to t rbs with
      | (t1, rbs1, Except.error e) => (t1, rbs1, [], some e)
      | (t1, rbs1, Except.ok r) =>
        ((runGates gs t1 rbs1).1, (runGates gs t1 rbs1).2.1,
         (match r with
           | some b => b :: (runGates gs t1 rbs1).2.2.1
           | none => (runGates gs t1 rbs1).2.2.1),
         (runGates gs t1 rbs1).2.2.2) := by
  show (match g.apply_to t rbs with
    | (t1, rbs1, Except.error e) => (t1, rbs1, [], some e)
    | (t1, rbs1, Except.ok r) =>
      let rest := runGates gs t1 rbs1
      (rest.1, rest.2.1,
       (match r with | some b => b :: rest.2.2.1 | none => rest.2.2.1),
       rest.2.2.2)) = _
  rcases g.apply_to t rbs with ⟨t1, rbs1, r⟩
  cases r <;> rfl

theorem sample_def (c : Circuit) (rbs : List Bool) :
    c.sample rbs = ({ c with tableau := (runGates c.gates c.tableau rbs).1 },
      (runGates c.gates c.tableau rbs).2.1, (runGates c.gates c.tableau rbs).2.2.1,
      (runGates c.gates c.tableau rbs).2.2.2) := rfl

theorem runGates_append (gs1 gs2 : List Gate) :
    ∀ (t : StabilizerTableau) (rbs : List Bool),
      (runGates gs1 t rbs).2.2.2 = none →
      runGates (gs1 ++ gs2) t rbs =
        ((runGates gs2 (runGates gs1 t rbs).1 (runGates gs1 t rbs).2.1).1,
         (runGates gs2 (runGates gs1 t rbs).1 (runGates gs1 t rbs).2.1).2.1,
         (runGates gs1 t rbs).2.2.1 ++
           (runGates gs2 (runGates gs1 t rbs).1 (runGates gs1 t rbs).2.1).2.2.1,
         (runGates gs2 (runGates gs1 t rbs).1 (runGates gs1 t rbs).2.1).2.2.2) := by
  induction gs1 with
  | nil =>
    intro t rbs _
    rfl
  | cons g gs ih =>
    intro t rbs hok
    rcases happ : g.apply_to t rbs with ⟨t1, rbs1, r⟩
    cases r with
    | error e =>
      exfalso
      have hcontra : (runGates (g :: gs) t rbs).2.2.2 = some e := by
        rw [runGates_cons, happ]
      rw [hcontra] at hok
      exact Option.noConfusion hok
    | ok r =>
      have hok2 : (runGates gs t1 rbs1).2.2.2 = none := by
        rw [runGates_cons, happ] at hok
        cases r with
        | some b => exact hok
        | none => exact hok
      have hmain := ih t1 rbs1 hok2
      simp only [List.cons_append, runGates_cons, happ]
      rw [hmain]
      cases r with
      | some b => simp
      | none => simp

theorem zeroT_pristine (nq : Nat) : pristine (zeroT nq) := by
  intro i j hij
  have hij2 : i < 2 * nq := hij
  by_cases hj : j < 2 * nq + 1
  · rw [ent_zeroT nq i j (by omega) hj, decide_eq_decide]
    exact ⟨fun hh => hh.1, fun hh => ⟨hh, hij2⟩⟩
  · have h1 : ent (zeroT nq).bmatrix i j = false := by
      unfold ent
      apply getD_out
      have hlen := Wf_getD (zeroT_Wf nq) i (by rw [zeroT_n]; omega)
      rw [hlen, zeroT_n]
      omega
    rw [h1]
    exact (decide_eq_false (by omega)).symm

theorem measList_cons (t : StabilizerTableau) (q : Nat) (qs : List Nat) (rbs : List Bool) :
    measList t (q :: qs) rbs =
      ((measList (t.measure q rbs).1 qs (t.measure q rbs).2.1).1,
       (measList (t.measure q rbs).1 qs (t.measure q rbs).2.1).2.1,
       (t.measure q rbs).2.2 ::
         (measList (t.measure q rbs).1 qs (t.measure q rbs).2.1).2.2) := rfl

theorem measList_pristine (nq : Nat) :
    ∀ (qs : List Nat) (t : StabilizerTableau) (rbs : List Bool),
      t.n = nq → t.Wf → pristine t → (∀ q ∈ qs, q < nq) →
      (measList t qs rbs).2.1 = rbs ∧
        ∀ r ∈ (measList t qs rbs).2.2, r = Except.ok false := by
  intro qs
  induction qs with
  | nil =>
    intro t rbs _ _ _ _
    exact ⟨rfl, fun r hr => absurd hr (List.not_mem_nil r)⟩
  | cons q qs ih =>
    intro t rbs hn hwf hpr hq
    have hqlt : q < t.n := by rw [hn]; exact hq q (List.mem_cons_self q qs)
    obtain ⟨heq, hfn, hfwf, hfpr⟩ := measure_pristine t q rbs hqlt hwf hpr
    obtain ⟨ha1, ha2⟩ := ih (detFoldDef t q) rbs (hfn.trans hn) hfwf hfpr
      (fun y hy => hq y (List.mem_cons_of_mem q hy))
    constructor
    · show (measList (t.measure q rbs).1 qs (t.measure q rbs).2.1).2.1 = rbs
      rw [heq]
      exact ha1
    · intro r hr
      rw [measList_cons] at hr
      simp only [heq] at hr
      rcases List.mem_cons.1 hr with hcase | hcase
      · exact hcase
      · exact ha2 r hcase

/-- C1: `phase(a)` is specified to update, for every row `i` in `[0, 2n)`,
first `rᵢ ← rᵢ ⊕ (xᵢₐ ∧ zᵢₐ)` and then `zᵢₐ ← zᵢₐ ⊕ xᵢₐ`, with all reads
and writes acting on the own matrix of the tableau, completing without error.
The code instead reads the nonexistent attribute `_matrix` in the z-update
of the first row, so `phase` on the zero one-qubit tableau raises
`AttributeError` and never updates any z-bit. -/
theorem C1_phase_raises_attribute_error :
    ((zeroT 1).phase 0).2 = Except.error PyError.attributeError ∧
    ((zeroT 1).phase 0).1.bmatrix = (zeroT 1).bmatrix := by
  constructor
  · rfl
  · decide

/-- C2: the spec claims applying `phase(a)` four times returns the matrix
to its prior value.  On the code, every one of the four successive `phase`
calls raises `AttributeError` (the missing `_matrix` attribute), so the
sequence never completes even once. -/
theorem C2_phase_four_times_raises :
    (((zeroT 2).phase 1).2 = Except.error PyError.attributeError) ∧
    ((((zeroT 2).phase 1).1.phase 1).2 = Except.error PyError.attributeError) ∧
    (((((zeroT 2).phase 1).1.phase 1).1.phase 1).2 = Except.error PyError.attributeError) ∧
    ((((((zeroT 2).phase 1).1.phase 1).1.phase 1).1.phase 1).2
      = Except.error PyError.attributeError) :=
  ⟨rfl, rfl, rfl, rfl⟩

/-- C3: the spec requires every public mutation either to complete fully
or to leave the matrix exactly as before on error.  On a one-qubit tableau
whose row 0 has `x₀₀ = z₀₀ = 1`, `phase(0)` flips the sign bit `r₀` (the
line-97 write to `_bmatrix` succeeds) and then raises `AttributeError`
(line 99 reads the missing `_matrix`), leaving an observable partial
mutation. -/
theorem C3_phase_partial_mutation :
    ((StabilizerTableau.mk 1
        [[true, true, false], [false, true, false], [false, false, false]]).phase 0).2
      = Except.error PyError.attributeError ∧
    ((StabilizerTableau.mk 1
        [[true, true, false], [false, true, false], [false, false, false]]).phase 0).1.bmatrix
      ≠ [[true, true, false], [false, true, false], [false, false, false]] := by
  constructor
  · rfl
  · decide

/-- C4: for every shape-correct tableau of `n ≥ 1` qubits and every qubit
`a < n`, applying `h(a)` twice with no intervening operation returns the
matrix to its prior value exactly (and both calls succeed, `n` unchanged). -/
theorem C4_hadamard_twice_identity (t : StabilizerTableau) (a : Nat)
    (ha : a < t.n) (hwf : t.Wf) :
    ((t.h a).1.h a).1.bmatrix = t.bmatrix ∧ ((t.h a).1.h a).1.n = t.n ∧
    (t.h a).2 = Except.ok () ∧ ((t.h a).1.h a).2 = Except.ok () :=
  ⟨h_h_bmatrix t a ha hwf, (h_n _ _).trans (h_n _ _), h_ok t a ha,
   h_ok _ a (by rw [h_n]; exact ha)⟩

/-- Witness for C4 at the concrete input `zero(3)`, qubit 0. -/
theorem C4_witness :
    0 < (zeroT 3).n ∧ (((zeroT 3).h 0).1.h 0).1.bmatrix = (zeroT 3).bmatrix :=
  ⟨by decide, (C4_hadamard_twice_identity (zeroT 3) 0 (by decide) (zeroT_Wf 3)).1⟩

/-- C5 counterexample: the claim says construction fails unless the shape
is `(2n+1) × (2n+1)` for some `n ≥ 1`; but the 1×1 matrix (odd and
square, `n = 0`) is accepted by the code, and `1 = 2k+1` has no solution
with `k ≥ 1`. -/
theorem C5_counterexample :
    (∃ t, StabilizerTableau.init [[false]] = Except.ok t) ∧
    ∀ k, 1 ≤ k → (1 : Nat) ≠ 2 * k + 1 := by
  refine ⟨⟨_, rfl⟩, ?_⟩
  intro k hk
  omega

/-- C5 (amended): construction from an explicit matrix fails with the
shape `ValueError` if and only if the shape is not `(2n+1) × (2n+1)` for
some integer `n ≥ 0` — an even row count or a column count different from
the row count is rejected, and every odd square shape, including 1×1, is
accepted. -/
theorem C5_amended_shape_check (m : Mat) :
    (StabilizerTableau.init m = Except.error PyError.valueError ↔
      ¬ ∃ k, m.length = 2 * k + 1 ∧ (m.headD []).length = m.length) ∧
    ((∃ t, StabilizerTableau.init m = Except.ok t) ↔
      ∃ k, m.length = 2 * k + 1 ∧ (m.headD []).length = m.length) := by
  unfold StabilizerTableau.init
  by_cases h1 : m.length % 2 = 0
  · rw [if_pos h1]
    constructor
    · constructor
      · intro _ hex
        obtain ⟨k, hk, _⟩ := hex
        omega
      · intro _
        rfl
    · constructor
      · intro hex
        obtain ⟨t, ht⟩ := hex
        exact Except.noConfusion ht
      · intro hex
        obtain ⟨k, hk, _⟩ := hex
        exact absurd h1 (by omega)
  · rw [if_neg h1]
    by_cases h2 : (m.headD []).length ≠ m.length
    · rw [if_pos h2]
      constructor
      · constructor
        · intro _ hex
          obtain ⟨k, _, hc⟩ := hex
          exact h2 hc
        · intro _
          rfl
      · constructor
        · intro hex
          obtain ⟨t, ht⟩ := hex
          exact Except.noConfusion ht
        · intro hex
          obtain ⟨k, _, hc⟩ := hex
          exact absurd hc h2
    · rw [if_neg h2]
      push_neg at h2
      constructor
      · constructor
        · intro hcontra
          exact Except.noConfusion hcontra
        · intro hne
          exact absurd ⟨(m.length - 1) / 2, by omega, h2⟩ hne
      · constructor
        · intro _
          exact ⟨(m.length - 1) / 2, by omega, h2⟩
        · intro _
          exact ⟨_, rfl⟩

/-- C6: measuring any qubit `a < n` of the zero-state tableau returns
false, deterministically — for every random stream, which is moreover left
untouched — and repeated measurements on the same (mutated) tableau keep
returning false. -/
theorem C6_measure_zero_state_false (nq : Nat) (qs : List Nat) (rbs : List Bool)
    (hqs : ∀ q ∈ qs, q < nq) :
    (measList (zeroT nq) qs rbs).2.1 = rbs ∧
    ∀ r ∈ (measList (zeroT nq) qs rbs).2.2, r = Except.ok false :=
  measList_pristine nq qs (zeroT nq) rbs rfl (zeroT_Wf nq) (zeroT_pristine nq) hqs

/-- Witness for C6: two successive measurements of qubit 0 on `zero(1)`. -/
theorem C6_witness :
    (∀ q ∈ [0, 0], q < 1) ∧
    ((measList (zeroT 1) [0, 0] [true]).2.1 = [true] ∧
      ∀ r ∈ (measList (zeroT 1) [0, 0] [true]).2.2, r = Except.ok false) :=
  ⟨by decide, C6_measure_zero_state_false 1 [0, 0] [true] (by decide)⟩

/-- C7: preparing a Bell state via `zero(2)`, `h(0)`, `cnot(0,1)` and then
measuring qubit 0 then qubit 1 yields equal outcomes for every value of
the random bit drawn by the first measurement (the second is
deterministic); the first outcome is exactly the drawn bit. -/
theorem C7_bell_outcomes_equal :
    ∀ rb1 rb2 : Bool,
      (bellOutcomes [rb1, rb2]).1 = (bellOutcomes [rb1, rb2]).2 ∧
      (bellOutcomes [rb1, rb2]).1 = Except.ok rb1 := by
  decide

/-- C8: when no stabilizer row `p ∈ [n, 2n)` has `x_pa = 1`, `measure(a)`
zeroes the scratch row, calls `rowsum(2n, i+n)` for every destabilizer row
`i ∈ [0, n)` with `x_ia = 1` (that is exactly `detRun`), returns the
resulting sign bit of the scratch row without touching the random stream, and
leaves all destabilizer and stabilizer rows exactly unchanged. -/
theorem C8_measure_deterministic_branch (t : StabilizerTableau) (a : Nat) (rbs : List Bool)
    (ha : a < t.n) (hwf : t.Wf)
    (hp : ∀ p, t.n ≤ p → p < 2 * t.n → ent t.bmatrix p a = false) :
    t.measure a rbs =
      (detRun t a, rbs, Except.ok (ent (detRun t a).bmatrix (2 * t.n) (2 * t.n))) ∧
    ∀ i, i < 2 * t.n → (detRun t a).bmatrix.getD i [] = t.bmatrix.getD i [] := by
  obtain ⟨h1, _, _, h4⟩ := measure_det_spec t a rbs ha hwf hp
  exact ⟨h1, h4⟩

/-- Witness for C8 at `zero(1)`, qubit 0. -/
theorem C8_witness :
    0 < (zeroT 1).n ∧
    ((zeroT 1).measure 0 [true] =
      (detRun (zeroT 1) 0, [true],
       Except.ok (ent (detRun (zeroT 1) 0).bmatrix (2 * (zeroT 1).n) (2 * (zeroT 1).n))) ∧
    ∀ i, i < 2 * (zeroT 1).n →
      (detRun (zeroT 1) 0).bmatrix.getD i [] = (zeroT 1).bmatrix.getD i []) :=
  ⟨by decide, C8_measure_deterministic_branch (zeroT 1) 0 [true] (by decide) (zeroT_Wf 1)
    (fun p h1 h2 => by
      rw [zeroT_n] at h1 h2
      have hp1 : p = 1 := by omega
      subst hp1
      decide)⟩

/-- C9: every operation — `h`, `phase`, `cnot`, `measure`, `rowsum` —
preserves the shape invariant (matrix exactly `(2n+1) × (2n+1)`) and never
changes `n`, whether it completes or fails. -/
theorem C9_shape_invariant (t : StabilizerTableau) (a b hr ir : Nat) (rbs : List Bool)
    (hwf : t.Wf) :
    ((t.h a).1.n = t.n ∧ (t.h a).1.Wf) ∧
    ((t.phase a).1.n = t.n ∧ (t.phase a).1.Wf) ∧
    ((t.cnot a b).1.n = t.n ∧ (t.cnot a b).1.Wf) ∧
    ((t.measure a rbs).1.n = t.n ∧ (t.measure a rbs).1.Wf) ∧
    ((t.rowsum hr ir).n = t.n ∧ (t.rowsum hr ir).Wf) :=
  ⟨⟨h_n t a, h_Wf t a hwf⟩, ⟨phase_n t a, phase_Wf t a hwf⟩,
   ⟨cnot_n t a b, cnot_Wf t a b hwf⟩, ⟨measure_n t a rbs, measure_Wf t a rbs hwf⟩,
   ⟨rowsum_n t hr ir, rowsum_Wf t hr ir hwf⟩⟩

/-- Witness for C9 at `zero(1)`. -/
theorem C9_witness :
    (zeroT 1).Wf ∧
    ((((zeroT 1).h 0).1.n = (zeroT 1).n ∧ ((zeroT 1).h 0).1.Wf) ∧
     (((zeroT 1).phase 0).1.n = (zeroT 1).n ∧ ((zeroT 1).phase 0).1.Wf) ∧
     (((zeroT 1).cnot 0 1).1.n = (zeroT 1).n ∧ ((zeroT 1).cnot 0 1).1.Wf) ∧
     (((zeroT 1).measure 0 []).1.n = (zeroT 1).n ∧ ((zeroT 1).measure 0 []).1.Wf) ∧
     (((zeroT 1).rowsum 2 0).n = (zeroT 1).n ∧ ((zeroT 1).rowsum 2 0).Wf)) :=
  ⟨zeroT_Wf 1, C9_shape_invariant (zeroT 1) 0 1 2 0 [] (zeroT_Wf 1)⟩

/-- C10: `Circuit.sample()` never resets the owned tableau: the call
leaves the tableau exactly as the replay of the gate sequence left it, the
gate list and qubit count unchanged; consequently, when the first call
raises no error, a second `sample()` continues from that state and the two
calls together behave exactly like replaying the gate sequence twice
against one tableau (outcomes concatenate). -/
theorem C10_sample_accumulates (c : Circuit) (rbs : List Bool)
    (hok : (runGates c.gates c.tableau rbs).2.2.2 = none) :
    (c.sample rbs).1.gates = c.gates ∧
    (c.sample rbs).1.nqubits = c.nqubits ∧
    (c.sample rbs).1.tableau = (runGates c.gates c.tableau rbs).1 ∧
    ((c.sample rbs).1.sample (c.sample rbs).2.1).1.tableau
      = (runGates (c.gates ++ c.gates) c.tableau rbs).1 ∧
    (c.sample rbs).2.2.1 ++ ((c.sample rbs).1.sample (c.sample rbs).2.1).2.2.1
      = (runGates (c.gates ++ c.gates) c.tableau rbs).2.2.1 := by
  have happ := runGates_append c.gates c.gates c.tableau rbs hok
  refine ⟨rfl, rfl, rfl, ?_, ?_⟩
  · rw [happ]
    rfl
  · rw [happ]
    rfl

/-- Witness for C10: a one-qubit circuit `H 0; M 0`, sampled twice. -/
theorem C10_witness :
    (runGates (Circuit.mk 1 (zeroT 1) [Gate.H 0, Gate.M 0]).gates
        (Circuit.mk 1 (zeroT 1) [Gate.H 0, Gate.M 0]).tableau [true, false]).2.2.2 = none ∧
    ((Circuit.mk 1 (zeroT 1) [Gate.H 0, Gate.M 0]).sample [true, false]).1.gates
      = [Gate.H 0, Gate.M 0] :=
  ⟨rfl, (C10_sample_accumulates (Circuit.mk 1 (zeroT 1) [Gate.H 0, Gate.M 0])
    [true, false] rfl).1⟩
